import Mathlib

/-!
Verification of `OrthancServer/Resources/DicomConformanceStatement.py`,
the script that injects DICOM UID information into Orthanc's conformance
statement.  The script's pipeline (version resolution, archive member scan,
UID extraction, transfer-syntax loading, template rendering) is embedded
shallowly below: strings are `List Char`, byte streams are `List Nat`,
fallible steps return `Except`, and the two regular expressions used by the
script are modelled with their exact Python matching semantics (lazy groups
with backtracking, ASCII `\s`, left-to-right search).
-/

/-- A (symbolic name, UID) record, as built by the extraction loops of the
script (`{'name': ..., 'uid': ...}`). -/
structure UidEntry where
  name : List Char
  uid : List Char
deriving DecidableEq, Repr

/-- Lexicographic comparison of strings by code point, which is Python's
`<=` on `str` and the order used by `sorted` with a string key. -/
def leChars : List Char → List Char → Bool
  | [], _ => true
  | _ :: _, [] => false
  | a :: x, b :: y =>
    if a.toNat < b.toNat then true
    else if b.toNat < a.toNat then false
    else leChars x y

/-- Python's `str.ljust`: pad on the right with spaces up to the given
width (no-op when the string is already at least that long). -/
def ljust (s : List Char) (w : Nat) : List Char :=
  s ++ List.replicate (w - s.length) ' '

/-- Characters matched by Python's regex `\s` among the ASCII code points
(the only ones that can appear after an `ascii` decode). -/
def isSpaceRe (c : Char) : Bool :=
  c = ' ' || c = '\t' || c = '\n' || c = '\r' ||
  c = Char.ofNat 11 || c = Char.ofNat 12 ||
  c = Char.ofNat 28 || c = Char.ofNat 29 || c = Char.ofNat 30 || c = Char.ofNat 31

/-- Match a literal string at the front of the input, returning the
remainder on success. -/
def dropLit : List Char → List Char → Option (List Char)
  | [], s => some s
  | _ :: _, [] => none
  | p :: ps, c :: cs => if p = c then dropLit ps cs else none

/-- The tail of the lazy group `(.+?)"`: the shortest possibly-empty run of
non-newline characters followed by a double quote, after the group's forced
first character. -/
def group2Rest : List Char → Option (List Char)
  | [] => none
  | c :: v =>
    if c = '"' then some []
    else if c = '\n' then none
    else (group2Rest v).map (c :: ·)

/-- The lazy group `(.+?)` followed by a closing double quote: at least one
non-newline character, extended lazily until a quote follows. -/
def group2Of : List Char → Option (List Char)
  | [] => none
  | c :: v => if c = '\n' then none else (group2Rest v).map (c :: ·)

/-- The part of the UID pattern after group 1: `\s*"(.+?)"`.  The `\s*` is
greedy, and since a quote is never a space no backtracking into it can
succeed. Returns group 2. -/
def tailMatch (r : List Char) : Option (List Char) :=
  match r.dropWhile isSpaceRe with
  | '"' :: u => group2Of u
  | _ => none

/-- Backtracking search for `(.+?Storage)\s*"(.+?)"`: the lazy dot-run is
tried shortest first; when closing the group with the literal `Storage` (and
matching the rest of the pattern) fails, the run is extended by one
non-newline character.  `pRev` holds the run consumed so far, reversed and
non-empty.  Returns (group 1, group 2). -/
def scanGroup1 : List Char → List Char → Option (List Char × List Char)
  | _, [] => none
  | pRev, c :: t =>
    match dropLit "Storage".toList (c :: t) with
    | some rest =>
      match tailMatch rest with
      | some g2 => some (pRev.reverse ++ "Storage".toList, g2)
      | none => if c = '\n' then none else scanGroup1 (c :: pRev) t
    | none => if c = '\n' then none else scanGroup1 (c :: pRev) t

/-- Model of `re.match(r'#define UID_(.+?Storage)\s*"(.+?)"', line)`,
returning the entry `{'name': group 1, 'uid': group 2}` when the line
matches. -/
def matchUid (line : List Char) : Option UidEntry :=
  match dropLit "#define UID_".toList line with
  | none => none
  | some s =>
    match s with
    | [] => none
    | c :: t =>
      if c = '\n' then none
      else (scanGroup1 [c] t).map (fun g => ⟨g.1, g.2⟩)

/-- Python's `bytes.decode('ascii')`: succeeds exactly when every byte is
below 128, yielding the corresponding characters. -/
def decodeAscii (l : List Nat) : Except Unit (List Char) :=
  if l.all (· < 128) then .ok (l.map Char.ofNat) else .error ()

/-- The extraction loop over the header's byte lines: each line is decoded
as ASCII (a failure aborts the run), matched lines append their entry, and
`longest` accumulates the maximum matched name length. -/
def scanLines : List (List Nat) → List UidEntry → Nat → Except Unit (List UidEntry × Nat)
  | [], acc, longest => .ok (acc, longest)
  | l :: rest, acc, longest =>
    match decodeAscii l with
    | .error _ => .error ()
    | .ok s =>
      match matchUid s with
      | none => scanLines rest acc longest
      | some e => scanLines rest (acc ++ [e]) (max longest e.name.length)

/-- The order on entries used by `sorted(..., key = lambda x: x['name'])`. -/
def nameLe (a b : UidEntry) : Prop := leChars a.name b.name = true

instance : DecidableRel nameLe :=
  fun a b => instDecidableEqBool (leChars a.name b.name) true

/-- The order on entries used by `sorted(..., key = lambda x: x['uid'])`. -/
def uidLe (a b : UidEntry) : Prop := leChars a.uid b.uid = true

instance : DecidableRel uidLe :=
  fun a b => instDecidableEqBool (leChars a.uid b.uid) true

/-- `sorted(all_store_scp, key = lambda x: x['name'])`.  Python's `sorted`
is a stable sort; stable sorting is extensionally unique, and insertion
sort (inserting before the first element not below the inserted one) is
stable, so it is a faithful model. -/
def sortByName (es : List UidEntry) : List UidEntry :=
  List.insertionSort nameLe es

/-- The padding loop: left-justify every name to the given width. -/
def padAll (es : List UidEntry) (longest : Nat) : List UidEntry :=
  es.map (fun e => { e with name := ljust e.name longest })

/-- `all_store_scp` as finally produced by the script: the matched entries,
sorted by name, then padded to the longest matched name length. -/
def allStoreScp (dcmtk : List (List Nat)) : Except Unit (List UidEntry) :=
  match scanLines dcmtk [] 0 with
  | .error e => .error e
  | .ok p => .ok (padAll (sortByName p.1) p.2)

/-- `x['name'].startswith('DRAFT')`. -/
def isDraft (e : UidEntry) : Bool := ['D', 'R', 'A', 'F', 'T'].isPrefixOf e.name

/-- `x['name'].startswith('RETIRED')`. -/
def isRetired (e : UidEntry) : Bool := ['R', 'E', 'T', 'I', 'R', 'E', 'D'].isPrefixOf e.name

/-- The current Storage SOP classes: names starting with neither prefix
token. -/
def store_scp (all : List UidEntry) : List UidEntry :=
  all.filter (fun e => !isDraft e && !isRetired e)

/-- The retired Storage SOP classes. -/
def retired_store_scp (all : List UidEntry) : List UidEntry :=
  all.filter isRetired

/-- The draft Storage SOP classes. -/
def draft_store_scp (all : List UidEntry) : List UidEntry :=
  all.filter isDraft

/-- The character class `[0-9.]` of the version pattern. -/
def isVersionChar (c : Char) : Bool := c.isDigit || c = '.'

/-- One attempt of the pattern
`set\(DCMTK_STATIC_VERSION "([0-9.]+)" CACHE STRING` at the current
position.  The greedy captured run must be non-empty and be followed
immediately by the closing literal; since a quote is not in `[0-9.]`,
backtracking into a shorter run can never succeed. -/
def matchVersionAt (s : List Char) : Option (List Char) :=
  match dropLit "set(DCMTK_STATIC_VERSION \"".toList s with
  | none => none
  | some rest =>
    let cap := rest.takeWhile isVersionChar
    let rem := rest.dropWhile isVersionChar
    if cap.isEmpty then none
    else if "\" CACHE STRING".toList.isPrefixOf rem then some cap else none

/-- `re.search`: try the pattern at each position, left to right, returning
the first success. -/
def searchVersion : List Char → Option (List Char)
  | [] => none
  | c :: t =>
    match matchVersionAt (c :: t) with
    | some cap => some cap
    | none => searchVersion t

/-- The version-resolution step of the script: `re.search`, then
`assert(r != None)` (the failure), then `r.group(1)`. -/
def versionResolver (s : List Char) : Except Unit (List Char) :=
  match searchVersion s with
  | some v => .ok v
  | none => .error ()

/-- The number of positions of the text at which the version pattern
matches. -/
def countMatches (s : List Char) : Nat :=
  (s.tails.filterMap matchVersionAt).length

/-- A member of the downloaded tar archive: its path and its content. -/
structure TarMember where
  name : List Char
  content : List Char
deriving DecidableEq, Repr

/-- The fixed suffix identifying the target header file. -/
def dcuidSuffix : List Char := "dcmdata/include/dcmtk/dcmdata/dcuid.h".toList

/-- The member-scan loop of the script: `dcuid` starts as `None` and is
overwritten by every member whose path ends with the target suffix. -/
def scanMembers : List TarMember → Option (List Char) → Option (List Char)
  | [], acc => acc
  | m :: rest, acc =>
    scanMembers rest (if dcuidSuffix.isSuffixOf m.name then some m.content else acc)

/-- The archive-member selection step: the scan followed by
`assert(dcuid != None)`. -/
def remoteArchiveFetcher (members : List TarMember) : Except Unit (List Char) :=
  match scanMembers members none with
  | some c => .ok c
  | none => .error ()

/-- A record of the transfer-syntax data file. -/
structure TSRecord where
  Value : List Char
  UID : List Char
deriving DecidableEq, Repr

/-- One transfer-syntax entry:
`{'name': '%sTransferSyntax' % a[i]['Value'], 'uid': a[i]['UID']}`. -/
def tsEntry (r : TSRecord) : UidEntry :=
  ⟨r.Value ++ "TransferSyntax".toList, r.UID⟩

/-- The loop building transfer-syntax entries while accumulating the
longest resulting name length. -/
def scanTransferSyntaxes : List TSRecord → List UidEntry → Nat → List UidEntry × Nat
  | [], acc, longest => (acc, longest)
  | r :: rest, acc, longest =>
    scanTransferSyntaxes rest (acc ++ [tsEntry r]) (max longest (tsEntry r).name.length)

/-- `sorted(transfer_syntaxes, key = lambda x: x['uid'])`, modelled by a
stable sort exactly as `sortByName` is. -/
def sortByUid (es : List UidEntry) : List UidEntry :=
  List.insertionSort uidLe es

/-- The transfer-syntax loading step: build the entries, sort them by UID,
and pad every name to the longest name length. -/
def transferSyntaxLoader (a : List TSRecord) : List UidEntry :=
  let p := scanTransferSyntaxes a [] 0
  padAll (sortByUid p.1) p.2

/-- The state of the output file on disk. -/
structure OutputFile where
  content : List Char
deriving DecidableEq, Repr

/-- `open(..., 'w')`: the file is truncated to empty the moment it is
opened for writing. -/
def openTruncate (_ : OutputFile) : OutputFile := ⟨[]⟩

/-- `g.write(s)` on a freshly opened file. -/
def writeAll (_ : OutputFile) (s : List Char) : OutputFile := ⟨s⟩

/-- The rendering step of the script: the output file is opened for writing
(truncating it), then `pystache.render` runs — modelled as an opaque result,
the library being an external black box — and its output, if it produced
one, is written.  When rendering fails nothing more is written to the
already-truncated file. -/
def runRenderer (f : OutputFile) (render : Except Unit (List Char)) : OutputFile :=
  let f1 := openTruncate f
  match render with
  | .ok doc => writeAll f1 doc
  | .error _ => f1

/-- The longest name length of a collection, as the script's accumulation
loops compute it (starting from 0). -/
def maxNameLen (es : List UidEntry) : Nat :=
  es.foldl (fun m e => max m e.name.length) 0

/-- The alignment utility: pad every name of a collection to the
collection's own maximum name length. -/
def padCollection (es : List UidEntry) : List UidEntry :=
  padAll es (maxNameLen es)

/-- Bytes of a string, for building concrete header lines. -/
def encodeAscii (s : String) : List Nat := s.toList.map Char.toNat

/-- A small concrete header: one current and one retired Storage UID. -/
def demoLines : List (List Nat) :=
  [encodeAscii "#define UID_AStorage \"1\"",
   encodeAscii "#define UID_RETIRED_BStorage \"2\""]

/-- The raw entries the extraction loop collects from `demoLines`. -/
def demoRaw : List UidEntry :=
  [⟨"AStorage".toList, "1".toList⟩, ⟨"RETIRED_BStorage".toList, "2".toList⟩]

/-- The padded, sorted collection the script builds from `demoLines`. -/
def demoAll : List UidEntry :=
  [⟨"AStorage".toList ++ List.replicate 8 ' ', "1".toList⟩,
   ⟨"RETIRED_BStorage".toList, "2".toList⟩]

/-- A configuration text holding two copies of the version declaration. -/
def twoDecl : List Char :=
  ("set(DCMTK_STATIC_VERSION \"1.2\" CACHE STRING " ++
   "set(DCMTK_STATIC_VERSION \"3.4\" CACHE STRING").toList

/-- A configuration text holding exactly one version declaration. -/
def oneDecl : List Char :=
  "set(DCMTK_STATIC_VERSION \"3.6.9\" CACHE STRING".toList

/-- An archive with two members matching the target suffix. -/
def demoMembers : List TarMember :=
  [⟨"a/dcmdata/include/dcmtk/dcmdata/dcuid.h".toList, "first".toList⟩,
   ⟨"x/y".toList, "other".toList⟩,
   ⟨"b/dcmdata/include/dcmtk/dcmdata/dcuid.h".toList, "second".toList⟩]

/-! ### Helper lemmas -/

theorem leChars_total (x y : List Char) : leChars x y = true ∨ leChars y x = true := by
  induction x generalizing y with
  | nil => exact Or.inl rfl
  | cons a xs ih =>
    cases y with
    | nil => exact Or.inr rfl
    | cons b ys =>
      rcases Nat.lt_trichotomy a.toNat b.toNat with h | h | h
      · exact Or.inl (by simp [leChars, h])
      · have h1 : ¬ a.toNat < b.toNat := by omega
        have h2 : ¬ b.toNat < a.toNat := by omega
        rcases ih ys with h' | h'
        · exact Or.inl (by simp [leChars, h1, h2, h'])
        · exact Or.inr (by simp [leChars, h1, h2, h'])
      · exact Or.inr (by simp [leChars, h])

theorem leChars_trans (x y z : List Char) (hxy : leChars x y = true)
    (hyz : leChars y z = true) : leChars x z = true := by
  induction x generalizing y z with
  | nil => rfl
  | cons a xs ih =>
    cases y with
    | nil => simp [leChars] at hxy
    | cons b ys =>
      cases z with
      | nil => simp [leChars] at hyz
      | cons c zs =>
        simp only [leChars] at hxy hyz ⊢
        split_ifs at hxy with h1 h2
        · split_ifs at hyz with h3 h4
          · simp [show a.toNat < c.toNat by omega]
          · simp [show a.toNat < c.toNat by omega]
        · split_ifs at hyz with h3 h4
          · simp [show a.toNat < c.toNat by omega]
          · have e1 : ¬ a.toNat < c.toNat := by omega
            have e2 : ¬ c.toNat < a.toNat := by omega
            simp [e1, e2]
            exact ih ys zs hxy hyz

instance : IsTotal UidEntry nameLe :=
  ⟨fun a b => leChars_total a.name b.name⟩

instance : IsTrans UidEntry nameLe :=
  ⟨fun a b c h1 h2 => leChars_trans a.name b.name c.name h1 h2⟩

instance : IsTotal UidEntry uidLe :=
  ⟨fun a b => leChars_total a.uid b.uid⟩

instance : IsTrans UidEntry uidLe :=
  ⟨fun a b c h1 h2 => leChars_trans a.uid b.uid c.uid h1 h2⟩

theorem ljust_length (s : List Char) (w : Nat) :
    (ljust s w).length = max s.length w := by
  simp [ljust]
  omega

theorem ljust_of_width_le (s : List Char) (w : Nat) (h : w ≤ s.length) :
    ljust s w = s := by
  simp [ljust, Nat.sub_eq_zero_of_le h]

theorem init_le_foldl_max (l : List UidEntry) (l0 : Nat) :
    l0 ≤ l.foldl (fun m x => max m x.name.length) l0 := by
  induction l generalizing l0 with
  | nil => simp
  | cons e t ih =>
    simp only [List.foldl_cons]
    exact le_trans (Nat.le_max_left _ _) (ih _)

theorem le_foldl_max (l : List UidEntry) (e : UidEntry) (he : e ∈ l) :
    ∀ l0 : Nat, e.name.length ≤ l.foldl (fun m x => max m x.name.length) l0 := by
  induction l with
  | nil => cases he
  | cons x t ih =>
    intro l0
    simp only [List.foldl_cons]
    rcases List.mem_cons.mp he with rfl | hm
    · exact le_trans (Nat.le_max_right _ _) (init_le_foldl_max t _)
    · exact ih hm _

theorem foldl_max_le (l : List UidEntry) (l0 B : Nat) (h0 : l0 ≤ B)
    (h : ∀ e ∈ l, e.name.length ≤ B) :
    l.foldl (fun m x => max m x.name.length) l0 ≤ B := by
  induction l generalizing l0 with
  | nil => simpa using h0
  | cons e t ih =>
    simp only [List.foldl_cons]
    refine ih _ (Nat.max_le.mpr ⟨h0, h e (by simp)⟩) (fun x hx => h x (by simp [hx]))

theorem isPrefixOf_append_spaces (P : List Char) (hP : ' ' ∉ P) :
    ∀ (s : List Char) (n : Nat),
      P.isPrefixOf (s ++ List.replicate n ' ') = P.isPrefixOf s := by
  induction P with
  | nil => intro s n; simp [List.isPrefixOf]
  | cons p ps ih =>
    intro s n
    cases s with
    | cons c cs =>
      have hps : ' ' ∉ ps := fun h => hP (by simp [h])
      simp only [List.cons_append, List.isPrefixOf, List.append_eq]
      rw [ih hps cs n]
    | nil =>
      cases n with
      | zero => simp
      | succ m =>
        have hp : (p == ' ') = false := by
          have : p ≠ ' ' := fun h => hP (by simp [h])
          simpa using this
        simp [List.isPrefixOf, List.replicate_succ, hp]

theorem isDraft_ljust (e : UidEntry) (w : Nat) :
    isDraft ⟨ljust e.name w, e.uid⟩ = isDraft e := by
  simp only [isDraft, ljust]
  exact isPrefixOf_append_spaces _ (by decide) _ _

theorem isRetired_ljust (e : UidEntry) (w : Nat) :
    isRetired ⟨ljust e.name w, e.uid⟩ = isRetired e := by
  simp only [isRetired, ljust]
  exact isPrefixOf_append_spaces _ (by decide) _ _

theorem isDraft_isRetired_exclusive (e : UidEntry) (h1 : isDraft e = true)
    (h2 : isRetired e = true) : False := by
  cases e with
  | mk nm u =>
    cases nm with
    | nil => simp [isDraft, List.isPrefixOf] at h1
    | cons c cs =>
      simp only [isDraft, isRetired, List.isPrefixOf, Bool.and_eq_true,
        beq_iff_eq] at h1 h2
      rw [← h1.1] at h2
      exact absurd h2.1 (by decide)

theorem partition_perm (l : List UidEntry) :
    (store_scp l ++ draft_store_scp l ++ retired_store_scp l).Perm l := by
  induction l with
  | nil => simp [store_scp, draft_store_scp, retired_store_scp]
  | cons e t ih =>
    simp only [store_scp, draft_store_scp, retired_store_scp] at ih ⊢
    by_cases hd : isDraft e = true
    · have hr : isRetired e = false := by
        cases h' : isRetired e
        · rfl
        · exact (isDraft_isRetired_exclusive e hd h').elim
      rw [List.filter_cons_of_neg (by simp [hd]),
          List.filter_cons_of_pos (by simp [hd]),
          List.filter_cons_of_neg (by simp [hr])]
      exact (List.perm_middle.append_right _).trans (ih.cons e)
    · have hd' : isDraft e = false := by
        cases h' : isDraft e
        · rfl
        · exact absurd h' hd
      by_cases hr : isRetired e = true
      · rw [List.filter_cons_of_neg (by simp [hr]),
            List.filter_cons_of_neg (by simp [hd']),
            List.filter_cons_of_pos (by simp [hr])]
        exact List.perm_middle.trans (ih.cons e)
      · have hr' : isRetired e = false := by
          cases h' : isRetired e
          · rfl
          · exact absurd h' hr
        rw [List.filter_cons_of_pos (by simp [hd', hr']),
            List.filter_cons_of_neg (by simp [hd']),
            List.filter_cons_of_neg (by simp [hr'])]
        exact ih.cons e

theorem filter_padAll (es : List UidEntry) (w : Nat) (p : UidEntry → Bool)
    (hp : ∀ e : UidEntry, ∀ w' : Nat, p ⟨ljust e.name w', e.uid⟩ = p e) :
    (padAll es w).filter p = padAll (es.filter p) w := by
  simp only [padAll, List.filter_map]
  congr 1
  apply List.filter_congr
  intro e _
  exact hp e w

theorem store_scp_padAll (es : List UidEntry) (w : Nat) :
    store_scp (padAll es w) = padAll (store_scp es) w := by
  exact filter_padAll es w _ (fun e w' => by
    simp only [isDraft_ljust e w', isRetired_ljust e w'])

theorem draft_store_scp_padAll (es : List UidEntry) (w : Nat) :
    draft_store_scp (padAll es w) = padAll (draft_store_scp es) w := by
  exact filter_padAll es w _ (fun e w' => isDraft_ljust e w')

theorem retired_store_scp_padAll (es : List UidEntry) (w : Nat) :
    retired_store_scp (padAll es w) = padAll (retired_store_scp es) w := by
  exact filter_padAll es w _ (fun e w' => isRetired_ljust e w')

theorem scanLines_of_good :
    ∀ (lines : List (List Nat)) (acc : List UidEntry) (l0 : Nat),
      (∀ l ∈ lines, ∀ b ∈ l, b < 128) →
      scanLines lines acc l0 =
        .ok (acc ++ lines.filterMap (fun l => matchUid (l.map Char.ofNat)),
          (lines.filterMap (fun l => matchUid (l.map Char.ofNat))).foldl
            (fun m e => max m e.name.length) l0)
  | [], acc, l0, _ => by simp [scanLines]
  | l :: rest, acc, l0, h => by
    have hl : l.all (· < 128) = true := by
      rw [List.all_eq_true]
      intro b hb
      simpa using h l (by simp) b hb
    have hdec : decodeAscii l = .ok (l.map Char.ofNat) := by
      simp [decodeAscii, hl]
    cases hm : matchUid (l.map Char.ofNat) with
    | none =>
      simp only [scanLines, hdec, hm, List.filterMap_cons]
      exact scanLines_of_good rest acc l0 (fun x hx => h x (by simp [hx]))
    | some e =>
      simp only [scanLines, hdec, hm, List.filterMap_cons]
      rw [scanLines_of_good rest (acc ++ [e]) (max l0 e.name.length)
        (fun x hx => h x (by simp [hx]))]
      simp

theorem scanLines_of_bad :
    ∀ (lines : List (List Nat)) (acc : List UidEntry) (l0 : Nat),
      (∃ l ∈ lines, ∃ b ∈ l, 128 ≤ b) →
      scanLines lines acc l0 = .error ()
  | [], _, _, h => by simp at h
  | l :: rest, acc, l0, h => by
    cases hl : l.all (· < 128) with
    | false =>
      have hdec : decodeAscii l = .error () := by simp [decodeAscii, hl]
      simp [scanLines, hdec]
    | true =>
      have hgood : ∀ b ∈ l, b < 128 := by
        intro b hb
        simpa using (List.all_eq_true.mp hl) b hb
      have hdec : decodeAscii l = .ok (l.map Char.ofNat) := by
        simp [decodeAscii, hl]
      have hrest : ∃ x ∈ rest, ∃ b ∈ x, 128 ≤ b := by
        rcases h with ⟨x, hx, b, hb, hge⟩
        rcases List.mem_cons.mp hx with rfl | hx'
        · exact absurd (hgood b hb) (by omega)
        · exact ⟨x, hx', b, hb, hge⟩
      simp only [scanLines, hdec]
      cases hm : matchUid (l.map Char.ofNat) with
      | none => exact scanLines_of_bad rest acc l0 hrest
      | some e => exact scanLines_of_bad rest (acc ++ [e]) _ hrest

theorem scanLines_inv (lines : List (List Nat)) (res : List UidEntry) (L : Nat)
    (h : scanLines lines [] 0 = .ok (res, L)) :
    res = lines.filterMap (fun l => matchUid (l.map Char.ofNat)) ∧
    L = maxNameLen res ∧ (∀ l ∈ lines, ∀ b ∈ l, b < 128) := by
  by_cases hg : ∀ l ∈ lines, ∀ b ∈ l, b < 128
  · rw [scanLines_of_good lines [] 0 hg] at h
    have h1 := congrArg (fun x : Except Unit (List UidEntry × Nat) =>
      match x with | .ok p => p | .error _ => ([], 0)) h
    simp at h1
    refine ⟨h1.1.symm, ?_, hg⟩
    rw [← h1.2, ← h1.1]
    rfl
  · push_neg at hg
    rcases hg with ⟨l, hl, b, hb, hge⟩
    rw [scanLines_of_bad lines [] 0 ⟨l, hl, b, hb, by omega⟩] at h
    exact absurd h (by simp)

theorem scanTS_eq :
    ∀ (a : List TSRecord) (acc : List UidEntry) (l0 : Nat),
      scanTransferSyntaxes a acc l0 =
        (acc ++ a.map tsEntry,
          (a.map tsEntry).foldl (fun m e => max m e.name.length) l0)
  | [], acc, l0 => by simp [scanTransferSyntaxes]
  | r :: rest, acc, l0 => by
    simp only [scanTransferSyntaxes, List.map_cons, List.foldl_cons]
    rw [scanTS_eq rest (acc ++ [tsEntry r]) (max l0 (tsEntry r).name.length)]
    simp

theorem scanMembers_eq :
    ∀ (l : List TarMember) (acc : Option (List Char)),
      scanMembers l acc =
        match ((l.filter (fun m => dcuidSuffix.isSuffixOf m.name)).map
            (fun m => m.content)).getLast? with
        | some c => some c
        | none => acc
  | [], acc => by simp [scanMembers]
  | m :: rest, acc => by
    cases hm : dcuidSuffix.isSuffixOf m.name with
    | false =>
      simp only [scanMembers]
      rw [if_neg (by simp [hm]), scanMembers_eq rest acc,
        List.filter_cons_of_neg (by simp [hm])]
    | true =>
      simp only [scanMembers]
      rw [if_pos hm, scanMembers_eq rest (some m.content),
        List.filter_cons_of_pos (by simp [hm]), List.map_cons]
      cases hrest : ((rest.filter (fun m => dcuidSuffix.isSuffixOf m.name)).map
          (fun m => m.content)) with
      | nil => simp [hrest]
      | cons x xs =>
        rw [List.getLast?_cons_cons]
        cases hgl : (x :: xs).getLast? with
        | none => simp at hgl
        | some c => simp

theorem searchVersion_eq (s : List Char) :
    searchVersion s = (s.tails.filterMap matchVersionAt).head? := by
  induction s with
  | nil =>
    have h0 : matchVersionAt [] = none := by decide
    simp [searchVersion, h0]
  | cons c t ih =>
    rw [List.tails_cons, List.filterMap_cons]
    cases h : matchVersionAt (c :: t) with
    | some cap => simp [searchVersion, h]
    | none => simp only [searchVersion, h]; exact ih

theorem padAll_name_length (es : List UidEntry) (w : Nat)
    (h : ∀ e ∈ es, e.name.length ≤ w) :
    ∀ e ∈ padAll es w, e.name.length = w := by
  intro e he
  rcases List.mem_map.mp he with ⟨x, hx, rfl⟩
  simp only [ljust_length]
  exact Nat.max_eq_right (h x hx)

theorem padAll_padAll (es : List UidEntry) (w w' : Nat)
    (hw : ∀ e ∈ es, e.name.length ≤ w) (hw' : w' ≤ w) :
    padAll (padAll es w) w' = padAll es w := by
  have : ∀ e ∈ padAll es w,
      (fun e : UidEntry => { e with name := ljust e.name w' }) e = e := by
    intro e he
    have hlen : e.name.length = w := padAll_name_length es w hw e he
    simp [ljust_of_width_le e.name w' (by omega)]
  calc padAll (padAll es w) w' = (padAll es w).map id := List.map_congr_left this
    _ = padAll es w := List.map_id _

/-! ### Claim theorems -/

/-- C1: for every header text accepted by the UID Extractor, the three
collections `store_scp`, `draft_store_scp`, `retired_store_scp` partition
the full produced collection: their concatenation is a permutation of it
(no duplicates, no omissions), every draft name begins with the DRAFT
token, every retired name begins with the RETIRED token, no current name
begins with either, and the three collections are pairwise disjoint. -/
theorem uid_extractor_partition (dcmtk : List (List Nat)) (all : List UidEntry)
    (h : allStoreScp dcmtk = .ok all) :
    (store_scp all ++ draft_store_scp all ++ retired_store_scp all).Perm all ∧
    (∀ e ∈ draft_store_scp all, isDraft e = true) ∧
    (∀ e ∈ retired_store_scp all, isRetired e = true) ∧
    (∀ e ∈ store_scp all, isDraft e = false ∧ isRetired e = false) ∧
    List.Disjoint (store_scp all) (draft_store_scp all) ∧
    List.Disjoint (store_scp all) (retired_store_scp all) ∧
    List.Disjoint (draft_store_scp all) (retired_store_scp all) := by
  have hstore : ∀ e ∈ store_scp all, isDraft e = false ∧ isRetired e = false := by
    intro e he
    have hp := List.of_mem_filter he
    simp only [Bool.and_eq_true, Bool.not_eq_true'] at hp
    exact hp
  refine ⟨partition_perm all, ?_, ?_, hstore, ?_, ?_, ?_⟩
  · intro e he
    exact List.of_mem_filter he
  · intro e he
    exact List.of_mem_filter he
  · intro e he1 he2
    have h1 := (hstore e he1).1
    have h2 : isDraft e = true := List.of_mem_filter he2
    simp [h1] at h2
  · intro e he1 he2
    have h1 := (hstore e he1).2
    have h2 : isRetired e = true := List.of_mem_filter he2
    simp [h1] at h2
  · intro e he1 he2
    exact isDraft_isRetired_exclusive e (List.of_mem_filter he1)
      (List.of_mem_filter he2)

/-- Witness for C1 at a concrete two-line header. -/
theorem uid_extractor_partition_check :
    (store_scp demoAll ++ draft_store_scp demoAll ++
      retired_store_scp demoAll).Perm demoAll :=
  (uid_extractor_partition demoLines demoAll (by rfl)).1

/-- C2: the extractor sorts the full collection by name before
partitioning: the produced collection is the padded image of the globally
name-sorted raw matches, that sorted list is sorted and a permutation of
the raw matches, and each of the three outputs is the padded filter of it,
so the order inside each output is the global alphabetical order of the
full collection restricted to that subset. -/
theorem uid_extractor_global_sort_order (dcmtk : List (List Nat))
    (raw : List UidEntry) (longest : Nat)
    (h : scanLines dcmtk [] 0 = .ok (raw, longest)) :
    allStoreScp dcmtk = .ok (padAll (sortByName raw) longest) ∧
    List.Sorted nameLe (sortByName raw) ∧
    (sortByName raw).Perm raw ∧
    store_scp (padAll (sortByName raw) longest) =
      padAll ((sortByName raw).filter (fun e => !isDraft e && !isRetired e)) longest ∧
    draft_store_scp (padAll (sortByName raw) longest) =
      padAll ((sortByName raw).filter isDraft) longest ∧
    retired_store_scp (padAll (sortByName raw) longest) =
      padAll ((sortByName raw).filter isRetired) longest := by
  refine ⟨?_, ?_, ?_, ?_, ?_, ?_⟩
  · simp [allStoreScp, h]
  · exact List.sorted_insertionSort nameLe raw
  · exact List.perm_insertionSort nameLe raw
  · exact store_scp_padAll _ _
  · exact draft_store_scp_padAll _ _
  · exact retired_store_scp_padAll _ _

/-- Witness for C2 at a concrete two-line header. -/
theorem uid_extractor_global_sort_order_check :
    allStoreScp demoLines = .ok (padAll (sortByName demoRaw) 16) :=
  (uid_extractor_global_sort_order demoLines demoRaw 16 (by rfl)).1

/-- C3 counterexample: the claim says every padded name is the original
name preceded by spaces; on this concrete header the extractor produces
the original name followed by spaces instead. -/
theorem uid_padding_left_pad_false :
    allStoreScp demoLines = .ok demoAll ∧
    demoAll.map (fun e => e.name) =
      ["AStorage".toList ++ List.replicate 8 ' ', "RETIRED_BStorage".toList] ∧
    ¬ "AStorage".toList ++ List.replicate 8 ' ' =
        List.replicate 8 ' ' ++ "AStorage".toList :=
  ⟨by rfl, by rfl, by decide⟩

/-- C3 as amended: the width is the maximum name length over the entire
matched collection, computed before classification, and every name is
right-padded (the original name followed by spaces) to exactly that
width. -/
theorem uid_padding_right_justified (dcmtk : List (List Nat))
    (raw : List UidEntry) (longest : Nat)
    (h : scanLines dcmtk [] 0 = .ok (raw, longest)) :
    longest = maxNameLen raw ∧
    allStoreScp dcmtk =
      .ok ((sortByName raw).map
        (fun e => ⟨e.name ++ List.replicate (longest - e.name.length) ' ', e.uid⟩)) ∧
    (∀ e ∈ raw, e.name.length ≤ longest) ∧
    (∀ e ∈ padAll (sortByName raw) longest, e.name.length = longest) := by
  obtain ⟨hres, hL, _⟩ := scanLines_inv dcmtk raw longest h
  have hle : ∀ e ∈ raw, e.name.length ≤ longest := by
    intro e he
    rw [hL]
    exact le_foldl_max raw e he 0
  refine ⟨hL, ?_, hle, ?_⟩
  · simp only [allStoreScp, h]
    rfl
  · apply padAll_name_length
    intro e he
    exact hle e ((List.perm_insertionSort nameLe raw).subset he)

/-- Witness for the amended C3 at a concrete two-line header. -/
theorem uid_padding_right_justified_check :
    allStoreScp demoLines =
      .ok ((sortByName demoRaw).map
        (fun e => ⟨e.name ++ List.replicate (16 - e.name.length) ' ', e.uid⟩)) :=
  (uid_padding_right_justified demoLines demoRaw 16 (by rfl)).2.1

/-- C4 counterexample: on a configuration text containing two matching
version declarations the resolver does not fail with an error; it returns
the first captured version. -/
theorem version_resolver_multiple_matches_ok :
    countMatches twoDecl = 2 ∧ versionResolver twoDecl = .ok ("1.2".toList) :=
  ⟨by decide, by rfl⟩

/-- C4 as amended: with zero matches the Version Resolver fails; with one
or more matches it returns the capture of the first (leftmost) match — in
particular, for exactly one match it returns that exact capture, but a
duplicated declaration does not make it fail. -/
theorem version_resolver_first_match (s : List Char) :
    (countMatches s = 0 → versionResolver s = .error ()) ∧
    (∀ cap rest, s.tails.filterMap matchVersionAt = cap :: rest →
      versionResolver s = .ok cap) := by
  constructor
  · intro h0
    have he : s.tails.filterMap matchVersionAt = [] := List.length_eq_zero.mp h0
    simp [versionResolver, searchVersion_eq, he]
  · intro cap rest hc
    simp [versionResolver, searchVersion_eq, hc]

/-- Witness for the amended C4: a text with exactly one declaration. -/
theorem version_resolver_first_match_check :
    versionResolver oneDecl = .ok ("3.6.9".toList) :=
  (version_resolver_first_match oneDecl).2 ("3.6.9".toList) [] (by rfl)

/-- C5 counterexample: when rendering fails the output file does not keep
its prior content — it has already been truncated to empty — so the run is
neither "complete document" nor "prior content unchanged". -/
theorem renderer_partial_output_cex :
    runRenderer ⟨"previous content".toList⟩ (.error ()) ≠
      ⟨"previous content".toList⟩ ∧
    (runRenderer ⟨"previous content".toList⟩ (.error ())).content = [] :=
  ⟨by decide, rfl⟩

/-- C5 as amended: opening the output file for writing truncates it first;
on success its content is the complete rendered document, on failure it is
left empty (the prior content is lost, not preserved). -/
theorem renderer_truncate_then_write (f : OutputFile) (doc : List Char) (e : Unit) :
    runRenderer f (.ok doc) = ⟨doc⟩ ∧ runRenderer f (.error e) = ⟨[]⟩ :=
  ⟨rfl, rfl⟩

/-- C6: the Transfer Syntax Loader maps each record to an entry named
`Value ++ "TransferSyntax"` with the record's UID, sorts by UID under
code-point lexicographic order (under which "1.2.10" comes before "1.2.9",
unlike numeric-per-component order), and pads every name to the maximum
mapped name length. -/
theorem transfer_syntax_loader_shape (a : List TSRecord) :
    transferSyntaxLoader a =
      padAll (sortByUid (a.map tsEntry)) (maxNameLen (a.map tsEntry)) ∧
    (transferSyntaxLoader a).Perm
      (padAll (a.map tsEntry) (maxNameLen (a.map tsEntry))) ∧
    List.Pairwise uidLe (transferSyntaxLoader a) ∧
    (transferSyntaxLoader a).map (fun e => e.name.length) =
      List.replicate a.length (maxNameLen (a.map tsEntry)) ∧
    leChars "1.2.10".toList "1.2.9".toList = true := by
  have hmain : transferSyntaxLoader a =
      padAll (sortByUid (a.map tsEntry)) (maxNameLen (a.map tsEntry)) := by
    simp only [transferSyntaxLoader, scanTS_eq a [] 0, List.nil_append]
    rfl
  have hle : ∀ e ∈ sortByUid (a.map tsEntry),
      e.name.length ≤ maxNameLen (a.map tsEntry) := by
    intro e he
    exact le_foldl_max _ e ((List.perm_insertionSort uidLe _).subset he) 0
  refine ⟨hmain, ?_, ?_, ?_, by decide⟩
  · rw [hmain]
    exact (List.perm_insertionSort uidLe (a.map tsEntry)).map _
  · rw [hmain]
    exact List.Pairwise.map _ (fun x y h => h)
      (List.sorted_insertionSort uidLe (a.map tsEntry))
  · rw [hmain]
    refine List.eq_replicate_iff.mpr ⟨?_, ?_⟩
    · simp only [List.length_map, padAll, sortByUid]
      rw [(List.perm_insertionSort uidLe (a.map tsEntry)).length_eq]
      simp
    · intro b hb
      rcases List.mem_map.mp hb with ⟨e, he, rfl⟩
      exact padAll_name_length _ _ hle e he

/-- C7: when at least one archive member path ends with the dcuid.h
suffix, the Remote Archive Fetcher silently hands over the content of the
last matching member of the scan; when none matches, the run fails. -/
theorem fetcher_last_match_wins (members : List TarMember) :
    (members.filter (fun m => dcuidSuffix.isSuffixOf m.name) = [] →
      remoteArchiveFetcher members = .error ()) ∧
    (∀ m : TarMember,
      (members.filter (fun m => dcuidSuffix.isSuffixOf m.name)).getLast? =
        some m →
      remoteArchiveFetcher members = .ok m.content) := by
  constructor
  · intro h
    simp [remoteArchiveFetcher, scanMembers_eq, h]
  · intro m hm
    have hlast : ((members.filter (fun m => dcuidSuffix.isSuffixOf m.name)).map
        (fun m => m.content)).getLast? = some m.content := by
      rw [List.getLast?_map, hm]
      rfl
    simp [remoteArchiveFetcher, scanMembers_eq, hlast]

/-- Witness for C7: an archive with two matching members; the second one's
content is returned. -/
theorem fetcher_last_match_wins_check :
    remoteArchiveFetcher demoMembers = .ok ("second".toList) :=
  (fetcher_last_match_wins demoMembers).2
    ⟨"b/dcmdata/include/dcmtk/dcmdata/dcuid.h".toList, "second".toList⟩ (by rfl)

/-- C8: the alignment utility is idempotent — re-padding a collection that
was just padded to its own maximum name width changes nothing. -/
theorem padCollection_idem (es : List UidEntry) :
    padCollection (padCollection es) = padCollection es := by
  have hle : ∀ e ∈ es, e.name.length ≤ maxNameLen es :=
    fun e he => le_foldl_max es e he 0
  have hlen : ∀ e ∈ padAll es (maxNameLen es), e.name.length = maxNameLen es :=
    padAll_name_length es (maxNameLen es) hle
  have hw' : maxNameLen (padAll es (maxNameLen es)) ≤ maxNameLen es :=
    foldl_max_le _ 0 _ (Nat.zero_le _) (fun e he => le_of_eq (hlen e he))
  unfold padCollection
  exact padAll_padAll es (maxNameLen es) _ hle hw'

/-- C9: classification commutes with padding — filtering on the DRAFT and
RETIRED prefix tests after right-padding names with spaces gives exactly
the padded image of filtering before padding, for any width. -/
theorem classify_pad_commute (es : List UidEntry) (w : Nat) :
    store_scp (padAll es w) = padAll (store_scp es) w ∧
    draft_store_scp (padAll es w) = padAll (draft_store_scp es) w ∧
    retired_store_scp (padAll es w) = padAll (retired_store_scp es) w :=
  ⟨store_scp_padAll es w, draft_store_scp_padAll es w,
    retired_store_scp_padAll es w⟩

/-- C10: the extraction loop decodes every line as ASCII before the UID
pattern is tried: any line holding a byte of value 128 or more aborts the
run with an error — even a line unrelated to Storage UIDs — and when every
line is ASCII the scan succeeds, skipping exactly the non-matching lines. -/
theorem ascii_gate (lines : List (List Nat)) :
    ((∃ l ∈ lines, ∃ b ∈ l, 128 ≤ b) → scanLines lines [] 0 = .error ()) ∧
    ((∀ l ∈ lines, ∀ b ∈ l, b < 128) →
      scanLines lines [] 0 =
        .ok (lines.filterMap (fun l => matchUid (l.map Char.ofNat)),
          (lines.filterMap (fun l => matchUid (l.map Char.ofNat))).foldl
            (fun m e => max m e.name.length) 0)) := by
  constructor
  · intro h
    exact scanLines_of_bad lines [] 0 h
  · intro h
    simpa using scanLines_of_good lines [] 0 h

/-- Witness for C10: a single line `A` followed by byte 200 aborts the
scan. -/
theorem ascii_gate_check : scanLines [[65, 200]] [] 0 = .error () :=
  (ascii_gate [[65, 200]]).1 (by decide)
